import Mathlib

/-!
Verification of the serapis extraction module (src/serapis/extract.py).

The Python module is shallowly embedded below.  External collaborators
(language detection, sentence segmentation, sentence qualification and
cleaning, source-name resolution, the primary html2text converter and the
BeautifulSoup fallback parser) are passed in as explicit function
parameters bundled in the Collab structure, mirroring how the module
imports and calls them.  The regular expressions used by get_meta and
get_html_features are embedded by a small backtracking regex engine whose
alternation order and greedy repetition mirror the Python re module's
leftmost / greedy / ordered-alternation backtracking semantics.
-/

/-- Severity of a log line produced by the module's logger. -/
inductive LogLevel where
  | error
  | info
  deriving DecidableEq, Repr

/-- A log is the ordered list of emitted log lines. -/
abbrev Log := List (LogLevel × String)

/-- Features dict set by PageRequest.get_html_features:
highlighted and quotes flags. -/
structure Features where
  highlighted : Bool
  quotes : Bool
  deriving DecidableEq, Repr

/-- One retained sentence as stored in self.sentences: the dict with keys
s (the original sentence) and s_clean (its normalized form). -/
structure SentenceR where
  s : String
  s_clean : String
  deriving DecidableEq, Repr

/-- Process-wide configuration (serapis.config), read-only during a request. -/
structure Config where
  request_retry : Nat
  save_html : Bool
  deriving DecidableEq, Repr

/-- External collaborator functions, exactly the imports of extract.py:
is_english, paragraph_to_sentences, qualify_sentence, clean_sentence and
get_source_from_url come from sibling serapis modules; html2text models
the primary converter html_parser.handle (with the module-level option
flags already applied), returning none when handle raises; soupText
models the fallback BeautifulSoup(html).get_text() value obtained after
extracting head and script elements and the elements with class or id
comments, i.e. everything of the fallback branch except the final
re.sub newline rewriting, which is repository code and is embedded
separately as subNewlines. clean_sentence returns the normalized
sentence together with the list of discovered term variants (a Python
set, embedded as a duplicate-free list). -/
structure Collab where
  is_english : String → Bool
  paragraph_to_sentences : String → String → List String
  qualify_sentence : String → Bool
  clean_sentence : String → String → String × List String
  get_source_from_url : String → String
  html2text : String → Option String
  soupText : String → String

/-- Embedding of the Python str.split method applied with the two-newline
separator (page_text.split at line 81): splits at each leftmost
non-overlapping occurrence of two consecutive newline characters. -/
def splitNN : List Char → List (List Char)
  | [] => [[]]
  | '\n' :: '\n' :: rest => [] :: splitNN rest
  | c :: rest =>
    match splitNN rest with
    | g :: gs => (c :: g) :: gs
    | [] => [[c]]

/-- Mutable state threaded through one extract_sentences call: the local
doc list plus the self.sentences and self.variants members. -/
structure ExtState where
  docL : List String
  sentences : List SentenceR
  variants : List String
  deriving DecidableEq, Repr

/-- Python set.update embedded on insertion-ordered duplicate-free lists:
each new element is appended unless already present. -/
def varUpdate (vs : List String) (new : List String) : List String :=
  new.foldl (fun acc v => if v ∈ acc then acc else acc ++ [v]) vs

/-- Body of the inner loop of PageRequest.extract_sentences (lines 83-92):
a qualified sentence is always appended to the local doc list; it is
appended to self.sentences, and its variants merged into self.variants,
only when clean_sentence produced a non-empty variant set and no already
retained sentence has the same s_clean value. -/
def processSentence (cl : Collab) (term : String) (st : ExtState) (sentence : String) :
    ExtState :=
  if cl.qualify_sentence sentence then
    let st1 : ExtState := { st with docL := st.docL ++ [sentence] }
    let cleaned := cl.clean_sentence sentence term
    if cleaned.2 ≠ [] ∧ cleaned.1 ∉ st1.sentences.map SentenceR.s_clean then
      { st1 with
        variants := varUpdate st1.variants cleaned.2,
        sentences := st1.sentences ++ [{ s := sentence, s_clean := cleaned.1 }] }
    else st1
  else st

/-- Paragraph loop of PageRequest.extract_sentences: non-English paragraphs
are skipped entirely, English ones are segmented into candidate sentences. -/
def processParagraph (cl : Collab) (term : String) (st : ExtState) (p : String) :
    ExtState :=
  if cl.is_english p then
    (cl.paragraph_to_sentences p term).foldl (processSentence cl term) st
  else st

/-- Result of one extract_sentences call: the returned doc string plus the
updated self.sentences and self.variants. -/
structure ExtractOut where
  doc : String
  sentences : List SentenceR
  variants : List String
  deriving DecidableEq, Repr

/-- PageRequest.extract_sentences (lines 71-93): splits the page text into
paragraphs on blank lines, processes each paragraph, and returns the
space-joined doc list; sents0 and vars0 are the values of self.sentences
and self.variants on entry (empty lists for a freshly initialized request). -/
def extractSentences (cl : Collab) (term : String) (sents0 : List SentenceR)
    (vars0 : List String) (pageText : String) : ExtractOut :=
  let st := ((splitNN pageText.toList).map String.mk).foldl (processParagraph cl term)
    { docL := [], sentences := sents0, variants := vars0 }
  { doc := String.intercalate " " st.docL, sentences := st.sentences,
    variants := st.variants }

/-- Reference list of qualified candidate sentences: all candidate sentences
of English paragraphs that pass qualify_sentence, in encounter order.  This
is exactly the list whose space-join extract_sentences returns as doc. -/
def qualifiedSentences (cl : Collab) (term : String) (pageText : String) :
    List String :=
  (((splitNN pageText.toList).map String.mk).filter cl.is_english).flatMap
    (fun p => (cl.paragraph_to_sentences p term).filter cl.qualify_sentence)

/-- Worker for subNewlines; the flag records whether the previous character
was part of a newline run whose replacement has already been emitted. -/
def subNewlinesAux : Bool → List Char → List Char
  | _, [] => []
  | inRun, c :: rest =>
    if c = '\n' then
      (if inRun then [] else ['\n', '\n']) ++ subNewlinesAux true rest
    else c :: subNewlinesAux false rest

/-- Embedding of re.sub applied with pattern backslash-n-plus and
replacement of two newlines (extract.py line 152): every maximal run of
one or more newline characters is replaced by exactly two newlines. -/
def subNewlines (s : List Char) : List Char :=
  subNewlinesAux false s

/-- String-level wrapper of subNewlines. -/
def subNewlinesStr (s : String) : String :=
  String.mk (subNewlines s.toList)

/-- Worker for specNewlineCollapse, counting the newlines already seen in
the current run. -/
def specNewlineCollapseAux : Nat → List Char → List Char
  | _, [] => []
  | n, c :: rest =>
    if c = '\n' then
      (if n < 2 then ['\n'] else []) ++ specNewlineCollapseAux (n + 1) rest
    else c :: specNewlineCollapseAux 0 rest

/-- Modelled from the spec: the newline normalization that the spec ascribes
to the fallback converter, namely collapsing runs of 2 or more newlines
down to exactly two while leaving single newlines unchanged.  This is the
spec-side definition used to compare against the code-side subNewlines. -/
def specNewlineCollapse (s : List Char) : List Char :=
  specNewlineCollapseAux 0 s

/-- One HTTP response as seen by request_page: ok is the Python truthiness
of the response object and text is its textual body when the object has a
text attribute. -/
structure HttpResponse where
  ok : Bool
  text : Option String
  deriving DecidableEq, Repr

/-- Condition under which the retry loop accepts a fetch outcome
(line 60 of extract.py): the attempt did not raise, the response object is
truthy, and it has a text attribute. -/
def responseUsable (r : Option HttpResponse) : Bool :=
  match r with
  | some resp => resp.ok && resp.text.isSome
  | none => false

/-- Retry loop of PageRequest.request_page; fetch gives the outcome of each
successive network attempt (none when requests.get raised), made counts the
attempts already issued, and the Nat argument is the remaining attempts
counter.  Returns the accepted response, if any, with the total number of
network attempts issued. -/
def requestPageAux (fetch : Nat → Option HttpResponse) (made : Nat) :
    Nat → Option HttpResponse × Nat
  | 0 => (none, made)
  | Nat.succ n =>
    let r := fetch made
    if responseUsable r then (r, made + 1)
    else requestPageAux fetch (made + 1) n

/-- PageRequest.request_page (lines 53-69): up to request_retry attempts;
on exhaustion exactly one error line is logged and the result is absent.
The Python except clause swallows every exception of requests.get, so the
function is total and never propagates an exception; this is reflected by
the embedding being a total function. -/
def requestPage (retry : Nat) (fetch : Nat → Option HttpResponse) :
    Option HttpResponse × Nat × Log :=
  let out := requestPageAux fetch 0 retry
  match out.1 with
  | some r => (some r, out.2, [])
  | none => (none, out.2, [(LogLevel.error, "Failed to return page for url")])

/-- Character comparison of the regex engine; with ci set it is the
case-insensitive comparison of the re.IGNORECASE flag. -/
def ceq (ci : Bool) (a b : Char) : Bool :=
  if ci then a.toLower == b.toLower else a == b

/-- A single-character regex item: the dot (which in Python matches any
character except a newline) or a character class, possibly negated. -/
inductive Atom where
  | any
  | cls (neg : Bool) (cs : List Char)
  deriving DecidableEq, Repr

/-- Test of one atom against one character. -/
def Atom.test (ci : Bool) : Atom → Char → Bool
  | .any, c => c != '\n'
  | .cls neg cs, c => (cs.any fun d => ceq ci d c) != neg

/-- Regex abstract syntax, covering exactly the constructs appearing in the
patterns of extract.py: literals, single atoms, greedy star, plus and
optional repetition of atoms, capture groups, backreferences, concatenation
and ordered alternation. -/
inductive Regex where
  | eps
  | lit (cs : List Char)
  | atom (a : Atom)
  | star (a : Atom)
  | plus (a : Atom)
  | opt (a : Atom)
  | grp (n : Nat) (r : Regex)
  | bref (n : Nat)
  | cat (r1 r2 : Regex)
  | alt (r1 r2 : Regex)
  deriving Repr

/-- Strips a literal from the front of the input under the engine's
character comparison, returning the remainder on success. -/
def stripPrefixCi (ci : Bool) : List Char → List Char → Option (List Char)
  | [], s => some s
  | _ :: _, [] => none
  | c :: cs, d :: ds => if ceq ci c d then stripPrefixCi ci cs ds else none

/-- Length of the maximal prefix of the input whose characters all satisfy
the atom. -/
def runLen (ci : Bool) (a : Atom) : List Char → Nat
  | [] => 0
  | c :: s => if a.test ci c then runLen ci a s + 1 else 0

/-- The list n, n-1, ..., 1, 0: the candidate repetition counts of a greedy
repetition, in the order a backtracking engine tries them. -/
def countsDown : Nat → List Nat
  | 0 => [0]
  | n + 1 => (n + 1) :: countsDown n

/-- Capture environment: group index paired with the captured characters;
the most recent capture of a group shadows earlier ones. -/
abbrev REnv := List (Nat × List Char)

/-- Backtracking matcher.  rmatch ci r s env lists every way r can match a
prefix of s, as the pair of the remaining suffix and the updated capture
environment, in exactly the priority order of the Python re engine: greedy
repetition tries longer consumptions first and alternation tries the left
branch first, so the head of the list is the match Python produces. -/
def rmatch (ci : Bool) : Regex → List Char → REnv → List (List Char × REnv)
  | .eps, s, env => [(s, env)]
  | .lit cs, s, env =>
    match stripPrefixCi ci cs s with
    | some r => [(r, env)]
    | none => []
  | .atom _, [], _ => []
  | .atom a, c :: rest, env => if a.test ci c then [(rest, env)] else []
  | .star a, s, env => (countsDown (runLen ci a s)).map (fun k => (s.drop k, env))
  | .plus a, s, env =>
    ((countsDown (runLen ci a s)).filter (fun k => decide (0 < k))).map
      (fun k => (s.drop k, env))
  | .opt _, [], env => [([], env)]
  | .opt a, c :: rest, env =>
    (if a.test ci c then [(rest, env)] else []) ++ [(c :: rest, env)]
  | .grp n r, s, env =>
    (rmatch ci r s env).map
      (fun pr => (pr.1, (n, s.take (s.length - pr.1.length)) :: pr.2))
  | .bref n, s, env =>
    match env.lookup n with
    | some l =>
      match stripPrefixCi ci l s with
      | some r => [(r, env)]
      | none => []
    | none => []
  | .cat r1 r2, s, env =>
    (rmatch ci r1 s env).flatMap (fun pr => rmatch ci r2 pr.1 pr.2)
  | .alt r1 r2, s, env => rmatch ci r1 s env ++ rmatch ci r2 s env

/-- Embedding of re.search as a boolean: scans start positions left to
right and reports whether the pattern matches at any of them. -/
def rsearch (ci : Bool) (r : Regex) : List Char → Bool
  | [] => !(rmatch ci r [] []).isEmpty
  | s@(_ :: rest) => !(rmatch ci r s []).isEmpty || rsearch ci r rest

/-- Worker for findallG1; fuel bounds the number of scan steps, each of
which either consumes a match or advances one character. -/
def findallAux (ci : Bool) (r : Regex) : Nat → List Char → List (List Char)
  | 0, _ => []
  | fuel + 1, s =>
    match rmatch ci r s [] with
    | pr :: _ =>
      ((pr.2.lookup 1).getD []) ::
        (if pr.1.length < s.length then findallAux ci r fuel pr.1
         else
           match s with
           | [] => []
           | _ :: t => findallAux ci r fuel t)
    | [] =>
      match s with
      | [] => []
      | _ :: t => findallAux ci r fuel t

/-- Embedding of re.findall for a pattern with one capture group: the list
of group-1 captures of the leftmost non-overlapping matches. -/
def findallG1 (ci : Bool) (r : Regex) (s : List Char) : List (List Char) :=
  findallAux ci r (s.length + 1) s

/-- Embedding of the Python str.strip method with an explicit character
set: removes leading and trailing characters belonging to the set. -/
def stripChars (cs : List Char) (s : List Char) : List Char :=
  ((s.dropWhile (fun c => cs.contains c)).reverse.dropWhile
    (fun c => cs.contains c)).reverse

/-- Modelled from the spec: serapis.util.squashed, an external collaborator
not present under src.  Following the spec, it squashes a string to a
compact form for matching, keeping only the content characters
(alphanumerics) plus the characters of the keep set, so that incidental
whitespace and formatting cannot defeat matching; comparison is made
case-insensitive by lowercasing. -/
def squashed (s : List Char) (keep : List Char) : List Char :=
  (s.map Char.toLower).filter (fun c => c.isAlphanum || keep.contains c)

/-- OPENING_QUOTES tuple of PageRequest (line 50). -/
def OPENING_QUOTES : List (List Char) :=
  [['"'], ['\''], "&quot;".toList, ['“'], "&ldquo;".toList, ['‘'], "&lsquo;".toList,
   ['«'], "&laquo;".toList, ['‹'], "&lsaquo;".toList, ['„'], "&bdquo;".toList,
   ['‚'], "&sbquo;".toList]

/-- CLOSING_QUOTES tuple of PageRequest (line 51). -/
def CLOSING_QUOTES : List (List Char) :=
  [['\''], "&quot;".toList, ['”'], "&rdquo;".toList, ['’'], "&rsquo;".toList,
   ['»'], "&raquo;".toList, ['›'], "&rsaquo;".toList, ['“'], "&ldquo;".toList,
   ['‘'], "&lsquo;".toList]

/-- The emphasis tag names of the highlight pattern. -/
def tagAlts : List (List Char) :=
  ["em".toList, "i".toList, "b".toList, "strong".toList, "span".toList]

/-- Ordered alternation of literal strings, as produced by joining
alternatives with the vertical bar. -/
def altLits : List (List Char) → Regex
  | [] => Regex.atom (Atom.cls false [])
  | l :: ls => Regex.alt (Regex.lit l) (altLits ls)

/-- Concatenation of a list of regexes. -/
def cats : List Regex → Regex
  | [] => Regex.eps
  | r :: rs => Regex.cat r (cats rs)

/-- Negated character class. -/
def clsNot (cs : List Char) : Atom := Atom.cls true cs

/-- Plain character class. -/
def clsOf (cs : List Char) : Atom := Atom.cls false cs

/-- The highlight pattern of get_html_features (line 129): the term
enclosed in an emphasis tag, with the closing tag forced equal to the
opening one by a backreference, tolerating extra attribute characters in
the opening tag and trailing space, comma or colon before the close. -/
def highlightRe (term : List Char) : Regex :=
  cats [Regex.lit ['<'], Regex.grp 1 (altLits tagAlts), Regex.star (clsNot ['>']),
    Regex.lit ['>'], Regex.star (clsOf [' ']), Regex.lit term,
    Regex.star (clsOf [' ', ',', ':']), Regex.lit ['<', '/'], Regex.bref 1,
    Regex.lit ['>']]

/-- The quote pattern of get_html_features (line 130): like the highlight
pattern but the enclosing tag name is an opening quote glyph, and the
closing tag name is independently any closing quote glyph (no
backreference pairs them). -/
def quoteRe (term : List Char) : Regex :=
  cats [Regex.lit ['<'], Regex.grp 1 (altLits OPENING_QUOTES),
    Regex.star (clsNot ['>']), Regex.lit ['>'], Regex.star (clsOf [' ']),
    Regex.lit term, Regex.star (clsOf [' ', ',', ':']), Regex.lit ['<', '/'],
    Regex.grp 2 (altLits CLOSING_QUOTES), Regex.lit ['>']]

/-- The keep set used when squashing html (line 126). -/
def keepMarkup : List Char := ['<', '>', '/', '&', ';']

/-- PageRequest.get_html_features (lines 119-135): absent when no term is
set (the Python method returns early and self.features keeps its previous
value); otherwise both patterns are searched case-insensitively in the
squashed html against the squashed term. -/
def getHtmlFeatures (term html : String) : Option Features :=
  if term = "" then none
  else
    let minimalHtml := squashed html.toList keepMarkup
    let minimalTerm := squashed term.toList []
    some { highlighted := rsearch true (highlightRe minimalTerm) minimalHtml,
           quotes := rsearch true (quoteRe minimalTerm) minimalHtml }

/-- The prop_names dict of get_meta after Python dict-literal evaluation:
the source writes three entries but the two property keys collide, so the
og:author entry is overwritten by article:author and only two conventions
survive. -/
def propNames : List (List Char × List Char) :=
  [("name".toList, "author".toList), ("property".toList, "article:author".toList)]

/-- The author meta-tag pattern of get_meta (line 108) for one
prop and value pair: note the mandatory space, one further character that
is not a closing angle bracket, and the closing angle bracket demanded
after the quoted content value. -/
def authorRe (prop value : List Char) : Regex :=
  cats [Regex.lit ['<'], Regex.star (clsOf [' ']), Regex.lit "meta".toList,
    Regex.plus Atom.any, Regex.lit (prop ++ ['=']), Regex.opt Atom.any,
    Regex.lit value, Regex.opt Atom.any, Regex.lit " content=".toList,
    Regex.grp 1 (Regex.alt
      (cats [Regex.lit ['"'], Regex.plus (clsNot ['"']), Regex.lit ['"']])
      (cats [Regex.lit ['\''], Regex.plus (clsNot ['\'']), Regex.lit ['\'']])),
    Regex.lit [' '], Regex.atom (clsNot ['>']), Regex.lit ['>']]

/-- The title pattern of get_meta (line 116). -/
def titleRe : Regex :=
  cats [Regex.lit ['<'], Regex.star (clsOf [' ']), Regex.lit "title".toList,
    Regex.star (clsOf [' ']), Regex.lit ['>'], Regex.grp 1 (Regex.plus (clsNot ['<'])),
    Regex.lit ['<', '/'], Regex.star (clsOf [' ']), Regex.lit "title".toList,
    Regex.star (clsOf [' ']), Regex.lit ['>']]

/-- PageRequest.get_meta (lines 95-117): collects the author candidates of
both surviving conventions with re.findall (case-sensitive, as in the
source), strips surrounding quotes, keeps candidates that are non-empty
and do not start with http, and takes the first; the title is the first
title-element text, stripped of spaces and newlines. -/
def getMeta (pageHtml : String) : Option String × Option String :=
  let authors := propNames.flatMap
    (fun pv => (findallG1 false (authorRe pv.1 pv.2) pageHtml.toList).map
      (stripChars ['\'', '"']))
  let filtered := authors.filter
    (fun a => !a.isEmpty && !("http".toList.isPrefixOf a))
  let author := filtered.head?.map String.mk
  let titles := findallG1 false titleRe pageHtml.toList
  let title := (titles.head?.map (stripChars [' ', '\n'])).map String.mk
  (author, title)

/-- The mutable members of a PageRequest object, as set by __init__
(lines 175-190) and updated by the extraction methods. -/
structure PageState where
  url : String
  term : String
  variants : List String
  sentences : List SentenceR
  text : Option String
  html : String
  features : Option Features
  author : Option String
  title : Option String
  deriving DecidableEq, Repr

/-- PageRequest.__init__ member initialization (lines 182-190). -/
def initState (url term : String) : PageState :=
  { url := url, term := term, variants := [], sentences := [], text := some "",
    html := "", features := none, author := none, title := none }

/-- PageRequest.get_html_features as a state update: when no term is set
the method returns early and self.features keeps its previous value. -/
def applyHtmlFeatures (st : PageState) (html : String) : PageState :=
  match getHtmlFeatures st.term html with
  | some f => { st with features := some f }
  | none => st

/-- PageRequest.get_meta as a state update: always sets both members. -/
def applyMeta (st : PageState) (html : String) : PageState :=
  let m := getMeta html
  { st with author := m.1, title := m.2 }

/-- PageRequest.parse_response (lines 137-155): stores the response text as
self.html, converts it with the primary converter or, when that raises,
with the BeautifulSoup fallback followed by the newline rewriting, logging
an informational line; then runs sentence extraction on the converted text
and feature and metadata extraction on the raw html. -/
def parseResponse (cl : Collab) (st : PageState) (responseText : String) :
    PageState × Log :=
  let st0 := { st with html := responseText }
  let conv : String × Log :=
    match cl.html2text responseText with
    | some t => (t, [])
    | none => (subNewlinesStr (cl.soupText responseText),
               [(LogLevel.info, "Falling back on BeautifulSoup")])
  let eo := extractSentences cl st0.term st0.sentences st0.variants conv.1
  let st1 := { st0 with text := some eo.doc, sentences := eo.sentences,
                        variants := eo.variants }
  let st2 := applyHtmlFeatures st1 responseText
  (applyMeta st2 responseText, conv.2)

/-- The structured record returned by the structured property
(lines 157-173); the html key is present only when config.save_html is
set, and the variant set is emitted as a list. -/
structure Record where
  term : String
  url : String
  source : String
  doc : Option String
  features : Option Features
  variants : List String
  sentences : List SentenceR
  author : Option String
  title : Option String
  html : Option String
  deriving DecidableEq, Repr

/-- PageRequest.structured (lines 157-173). -/
def structured (cfg : Config) (cl : Collab) (st : PageState) : Record :=
  { term := st.term, url := st.url, source := cl.get_source_from_url st.url,
    doc := st.text, features := st.features, variants := st.variants,
    sentences := st.sentences, author := st.author, title := st.title,
    html := if cfg.save_html then some st.html else none }

/-- The extraction pipeline run on one successfully fetched page: fresh
member initialization, parse_response on the fetched text, then record
assembly. -/
def runPipeline (cl : Collab) (cfg : Config) (url term responseText : String) :
    Record × Log :=
  let pr := parseResponse cl (initState url term) responseText
  (structured cfg cl pr.1, pr.2)

/-- One object of a decoded article-API response body. -/
structure DiffObj where
  text : Option String
  html : Option String
  author : Option String
  title : Option String
  deriving DecidableEq, Repr

/-- A decoded article-API response body; objects is none when the decoded
mapping has no objects key. -/
structure DiffBody where
  objects : Option (List DiffObj)
  deriving DecidableEq, Repr

/-- DiffbotRequest.request_page (lines 205-221): apiResult is none when the
API call or the JSON decoding raised; the two assertions then demand a
present, non-empty objects list.  Every failure of the try block logs one
error line and yields an absent result. -/
def diffbotRequestPage (apiResult : Option DiffBody) : Option DiffBody × Log :=
  match apiResult with
  | some body =>
    match body.objects with
    | some (_ :: _) => (some body, [])
    | _ => (none, [(LogLevel.error, "Failed to return page for url")])
  | none => (none, [(LogLevel.error, "Failed to return page for url")])

/-- DiffbotRequest.parse_response (lines 223-231): adopts text, html,
author and title of the first object verbatim, then runs sentence
extraction (whose returned doc string is discarded, so self.text keeps the
adopted value) and feature detection on the object's html.  The none
branches model the uncaught Python exceptions this method would raise on a
malformed object (a missing html field) or when called without a
validated response; well-formed objects take the some branch. -/
def diffbotParseResponse (cl : Collab) (st : PageState) (body : DiffBody) :
    Option PageState :=
  match body.objects with
  | some (obj :: _) =>
    match obj.html with
    | some h =>
      let st0 := { st with text := obj.text, html := h, author := obj.author,
                           title := obj.title }
      let eo := extractSentences cl st0.term st0.sentences st0.variants h
      let st1 := { st0 with sentences := eo.sentences, variants := eo.variants }
      some (applyHtmlFeatures st1 h)
    | none => none
  | _ => none

/-- Case-insensitive equality of character lists: the relation induced on
consumed input by the engine's character comparison under re.IGNORECASE. -/
def CiEqL (a b : List Char) : Prop :=
  a.map Char.toLower = b.map Char.toLower

/-- An occurrence of the highlight pattern inside the squashed markup mh
for the squashed term mt: at some position mh carries an opening emphasis
tag that is case-insensitively one of em, i, b, strong or span, optional
non-bracket attribute characters, optional spaces, the term, optional
trailing space, comma or colon characters, and a closing tag whose name
equals the opening tag case-insensitively.  These are exactly the strings
the highlight pattern accepts. -/
def HighlightOcc (mh mt : List Char) : Prop :=
  ∃ (pre tg junk sp tm pn tg2 rest tag : List Char),
    tag ∈ tagAlts ∧ CiEqL tg tag ∧ CiEqL tm mt ∧ CiEqL tg2 tg ∧
    (∀ c ∈ junk, c ≠ '>') ∧ (∀ c ∈ sp, c = ' ') ∧
    (∀ c ∈ pn, c = ' ' ∨ c = ',' ∨ c = ':') ∧
    mh = pre ++ '<' ::
      (tg ++ (junk ++ '>' :: (sp ++ (tm ++ (pn ++ '<' :: '/' ::
        (tg2 ++ '>' :: rest))))))

/-- An occurrence of the quote pattern inside the squashed markup mh for
the squashed term mt: like HighlightOcc, but the opening tag name is
case-insensitively one of the opening quote glyphs and the closing tag
name is, independently, any of the closing quote glyphs.  These are
exactly the strings the quote pattern accepts. -/
def QuoteOcc (mh mt : List Char) : Prop :=
  ∃ (pre qg junk sp tm pn qg2 rest q1 q2 : List Char),
    q1 ∈ OPENING_QUOTES ∧ q2 ∈ CLOSING_QUOTES ∧ CiEqL qg q1 ∧ CiEqL tm mt ∧
    CiEqL qg2 q2 ∧
    (∀ c ∈ junk, c ≠ '>') ∧ (∀ c ∈ sp, c = ' ') ∧
    (∀ c ∈ pn, c = ' ' ∨ c = ',' ∨ c = ':') ∧
    mh = pre ++ '<' ::
      (qg ++ (junk ++ '>' :: (sp ++ (tm ++ (pn ++ '<' :: '/' ::
        (qg2 ++ '>' :: rest))))))

/-- A concrete collaborator bundle for evaluating the pipeline on closed
inputs: every paragraph is English and is its own single candidate
sentence, every sentence qualifies, cleaning is the identity with the
sentence itself as the single variant, and both converters are the
identity. -/
def idCollab : Collab :=
  { is_english := fun _ => true,
    paragraph_to_sentences := fun p _ => [p],
    qualify_sentence := fun _ => true,
    clean_sentence := fun sent _ => (sent, [sent]),
    get_source_from_url := id,
    html2text := fun s => some s,
    soupText := id }

/-- Like idCollab but the cleaner discovers no variants. -/
def novarCollab : Collab :=
  { idCollab with clean_sentence := fun sent _ => (sent, []) }

/-- Like idCollab but the primary converter always raises and the fallback
parser extracts a fixed text containing a single newline. -/
def fbCollab : Collab :=
  { idCollab with html2text := fun _ => none, soupText := fun _ => "a\nb" }

theorem processSentence_docL (cl : Collab) (term : String) (st : ExtState) (s : String) :
    (processSentence cl term st s).docL =
      st.docL ++ (if cl.qualify_sentence s then [s] else []) := by
  unfold processSentence
  cases hq : cl.qualify_sentence s
  · simp [hq]
  · simp only [hq, if_true]
    split <;> simp

theorem foldl_processSentence_docL (cl : Collab) (term : String) (sl : List String)
    (st : ExtState) :
    (sl.foldl (processSentence cl term) st).docL =
      st.docL ++ sl.filter cl.qualify_sentence := by
  induction sl generalizing st with
  | nil => simp
  | cons s sl ih =>
    rw [List.foldl_cons, ih, processSentence_docL, List.filter_cons]
    cases hq : cl.qualify_sentence s <;> simp [hq]

theorem processParagraph_true (cl : Collab) (term : String) (st : ExtState) (p : String)
    (he : cl.is_english p = true) :
    processParagraph cl term st p =
      (cl.paragraph_to_sentences p term).foldl (processSentence cl term) st := by
  unfold processParagraph
  rw [if_pos he]

theorem processParagraph_false (cl : Collab) (term : String) (st : ExtState) (p : String)
    (he : cl.is_english p = false) :
    processParagraph cl term st p = st := by
  unfold processParagraph
  rw [if_neg (by simp [he])]

theorem processParagraph_docL (cl : Collab) (term : String) (st : ExtState) (p : String) :
    (processParagraph cl term st p).docL =
      st.docL ++ (if cl.is_english p then
        (cl.paragraph_to_sentences p term).filter cl.qualify_sentence else []) := by
  unfold processParagraph
  cases he : cl.is_english p <;> simp [he, foldl_processSentence_docL]

theorem foldl_processParagraph_docL (cl : Collab) (term : String) (ps : List String)
    (st : ExtState) :
    (ps.foldl (processParagraph cl term) st).docL =
      st.docL ++ (ps.filter cl.is_english).flatMap
        (fun p => (cl.paragraph_to_sentences p term).filter cl.qualify_sentence) := by
  induction ps generalizing st with
  | nil => simp
  | cons p ps ih =>
    rw [List.foldl_cons, ih, processParagraph_docL, List.filter_cons]
    cases he : cl.is_english p <;> simp [he, List.append_assoc]

theorem processSentence_sentences_cases (cl : Collab) (term : String) (st : ExtState)
    (s : String) :
    ((processSentence cl term st s).sentences = st.sentences) ∨
    (cl.qualify_sentence s = true ∧
      (cl.clean_sentence s term).1 ∉ st.sentences.map SentenceR.s_clean ∧
      (processSentence cl term st s).sentences =
        st.sentences ++ [{ s := s, s_clean := (cl.clean_sentence s term).1 }]) := by
  unfold processSentence
  split
  · rename_i hq
    dsimp only
    split
    · rename_i hcond
      right
      exact ⟨hq, hcond.2, rfl⟩
    · left; rfl
  · left; rfl

theorem foldl_processSentence_sentences (cl : Collab) (term : String) (sl : List String)
    (st : ExtState) :
    ∃ new, (sl.foldl (processSentence cl term) st).sentences = st.sentences ++ new ∧
      List.Sublist (new.map SentenceR.s) (sl.filter cl.qualify_sentence) := by
  induction sl generalizing st with
  | nil => exact ⟨[], by simp, by simp⟩
  | cons s sl ih =>
    obtain ⟨new1, h1, h2⟩ := ih (processSentence cl term st s)
    rcases processSentence_sentences_cases cl term st s with hc | ⟨hq, _, hc⟩
    · refine ⟨new1, by rw [List.foldl_cons, h1, hc], ?_⟩
      apply h2.trans
      rw [List.filter_cons]
      split
      · exact List.sublist_cons_self _ _
      · exact List.Sublist.refl _
    · refine ⟨{ s := s, s_clean := (cl.clean_sentence s term).1 } :: new1, ?_, ?_⟩
      · rw [List.foldl_cons, h1, hc, List.append_assoc, List.singleton_append]
      · rw [List.filter_cons, if_pos (by simp [hq])]
        simpa using List.Sublist.cons₂ s h2

theorem foldl_processParagraph_sentences (cl : Collab) (term : String) (ps : List String)
    (st : ExtState) :
    ∃ new, (ps.foldl (processParagraph cl term) st).sentences = st.sentences ++ new ∧
      List.Sublist (new.map SentenceR.s)
        ((ps.filter cl.is_english).flatMap
          (fun p => (cl.paragraph_to_sentences p term).filter cl.qualify_sentence)) := by
  induction ps generalizing st with
  | nil => exact ⟨[], by simp, by simp⟩
  | cons p ps ih =>
    rw [List.foldl_cons]
    cases he : cl.is_english p
    · rw [processParagraph_false cl term st p he]
      obtain ⟨new, h1, h2⟩ := ih st
      refine ⟨new, h1, ?_⟩
      rw [List.filter_cons, if_neg (by simp [he])]
      exact h2
    · rw [processParagraph_true cl term st p he]
      obtain ⟨new1, hs1, hs2⟩ := foldl_processSentence_sentences cl term
        (cl.paragraph_to_sentences p term) st
      obtain ⟨new2, h1, h2⟩ := ih ((cl.paragraph_to_sentences p term).foldl
        (processSentence cl term) st)
      refine ⟨new1 ++ new2, ?_, ?_⟩
      · rw [h1, hs1, List.append_assoc]
      · rw [List.filter_cons, if_pos (by simp [he]), List.flatMap_cons, List.map_append]
        exact List.Sublist.append hs2 h2

theorem processSentence_nodup (cl : Collab) (term : String) (st : ExtState) (s : String)
    (h : (st.sentences.map SentenceR.s_clean).Nodup) :
    ((processSentence cl term st s).sentences.map SentenceR.s_clean).Nodup := by
  rcases processSentence_sentences_cases cl term st s with hc | ⟨_, hmem, hc⟩
  · rw [hc]; exact h
  · rw [hc, List.map_append, List.nodup_append]
    refine ⟨h, by simp, ?_⟩
    intro x hx hx2
    simp only [List.map_cons, List.map_nil, List.mem_cons, List.not_mem_nil, or_false] at hx2
    subst hx2
    exact hmem hx

theorem foldl_processSentence_nodup (cl : Collab) (term : String) (sl : List String)
    (st : ExtState) (h : (st.sentences.map SentenceR.s_clean).Nodup) :
    (((sl.foldl (processSentence cl term) st).sentences.map SentenceR.s_clean)).Nodup := by
  induction sl generalizing st with
  | nil => exact h
  | cons s sl ih => exact ih _ (processSentence_nodup cl term st s h)

theorem processParagraph_nodup (cl : Collab) (term : String) (st : ExtState) (p : String)
    (h : (st.sentences.map SentenceR.s_clean).Nodup) :
    (((processParagraph cl term st p).sentences.map SentenceR.s_clean)).Nodup := by
  cases he : cl.is_english p
  · rw [processParagraph_false cl term st p he]; exact h
  · rw [processParagraph_true cl term st p he]
    exact foldl_processSentence_nodup cl term _ st h

theorem foldl_processParagraph_nodup (cl : Collab) (term : String) (ps : List String)
    (st : ExtState) (h : (st.sentences.map SentenceR.s_clean).Nodup) :
    (((ps.foldl (processParagraph cl term) st).sentences.map SentenceR.s_clean)).Nodup := by
  induction ps generalizing st with
  | nil => exact h
  | cons p ps ih => exact ih _ (processParagraph_nodup cl term st p h)

theorem requestPageAux_all_fail (fetch : Nat → Option HttpResponse) (n made : Nat)
    (h : ∀ i, made ≤ i → i < made + n → responseUsable (fetch i) = false) :
    requestPageAux fetch made n = (none, made + n) := by
  induction n generalizing made with
  | zero => rfl
  | succ n ih =>
    unfold requestPageAux
    dsimp only
    rw [if_neg (by simp [h made (Nat.le_refl made) (by omega)])]
    rw [ih (made + 1) (fun i h1 h2 => h i (by omega) (by omega))]
    have : made + 1 + n = made + (n + 1) := by omega
    rw [this]

/-- Claim C2: for every URL whose every fetch attempt fails, request_page
makes exactly request_retry network attempts, logs exactly one error line,
returns an absent result, and (being a total function, in accordance with
the bare except of the source) raises no exception to the caller. -/
theorem fetch_exhaustion (retry : Nat) (fetch : Nat → Option HttpResponse)
    (h : ∀ i, i < retry → responseUsable (fetch i) = false) :
    requestPage retry fetch =
      (none, retry, [(LogLevel.error, "Failed to return page for url")]) := by
  unfold requestPage
  rw [requestPageAux_all_fail fetch retry 0 (fun i _ h2 => h i (by omega))]
  simp

/-- Witness for fetch_exhaustion: two attempts that both raise. -/
theorem fetch_exhaustion_witness :
    requestPage 2 (fun _ => none) =
      (none, 2, [(LogLevel.error, "Failed to return page for url")]) :=
  fetch_exhaustion 2 (fun _ => none) (fun _ _ => rfl)

/-- Claim C1 (counterexample): the doc string is not in general the
space-join of the retained sentences: with a cleaner that finds no
variants, a qualified sentence is in doc but is never retained. -/
theorem doc_join_counterexample :
    (extractSentences novarCollab "t" [] [] "hello").doc ≠
      String.intercalate " "
        ((extractSentences novarCollab "t" [] [] "hello").sentences.map SentenceR.s) := by
  decide

/-- Claim C1 (amended): for every successful direct-fetch request, doc is
the space-join of all qualified candidate sentences of English paragraphs
in encounter order, and the retained sentences' originals form a sublist
of that list, so every retained sentence appears in doc but doc may
contain qualified sentences that were not retained. -/
theorem doc_join_amended (cl : Collab) (term pageText : String) :
    (extractSentences cl term [] [] pageText).doc =
      String.intercalate " " (qualifiedSentences cl term pageText) ∧
    List.Sublist ((extractSentences cl term [] [] pageText).sentences.map SentenceR.s)
      (qualifiedSentences cl term pageText) := by
  constructor
  · unfold extractSentences qualifiedSentences
    dsimp only
    rw [foldl_processParagraph_docL]
    simp
  · obtain ⟨new, h1, h2⟩ := foldl_processParagraph_sentences cl term
      ((splitNN pageText.toList).map String.mk)
      { docL := [], sentences := [], variants := [] }
    unfold extractSentences qualifiedSentences
    dsimp only
    rw [h1]
    simpa using h2

/-- Claim C6: no two retained sentences ever share the same normalized
s_clean value (the invariant is preserved from any state satisfying it, in
particular from the empty initial state), and a candidate sentence whose
normalized form is already present is not appended and its variants are
not merged: the state is unchanged except for the doc list. -/
theorem retained_nodup :
    (∀ (cl : Collab) (term : String) (sents0 : List SentenceR) (vars0 : List String)
        (pageText : String), (sents0.map SentenceR.s_clean).Nodup →
      ((extractSentences cl term sents0 vars0 pageText).sentences.map
        SentenceR.s_clean).Nodup) ∧
    (∀ (cl : Collab) (term : String) (st : ExtState) (s : String),
        cl.qualify_sentence s = true →
        (cl.clean_sentence s term).1 ∈ st.sentences.map SentenceR.s_clean →
      processSentence cl term st s = { st with docL := st.docL ++ [s] }) := by
  constructor
  · intro cl term sents0 vars0 pageText h
    unfold extractSentences
    dsimp only
    exact foldl_processParagraph_nodup cl term _ _ h
  · intro cl term st s hq hmem
    unfold processSentence
    rw [if_pos hq]
    dsimp only
    rw [if_neg (fun hcond => hcond.2 hmem)]

/-- Witness for retained_nodup: a concrete extraction keeps distinct
normalized forms, and a duplicate candidate leaves the retained list and
the variant set unchanged. -/
theorem retained_nodup_witness :
    ((extractSentences idCollab "t" [] [] "hello").sentences.map
      SentenceR.s_clean).Nodup ∧
    processSentence idCollab "t"
        { docL := [], sentences := [{ s := "x", s_clean := "x" }], variants := ["x"] }
        "x" =
      { docL := ["x"], sentences := [{ s := "x", s_clean := "x" }],
        variants := ["x"] } := by
  refine ⟨retained_nodup.1 idCollab "t" [] [] "hello" (by decide), ?_⟩
  have h := retained_nodup.2 idCollab "t"
    { docL := [], sentences := [{ s := "x", s_clean := "x" }], variants := ["x"] } "x"
    rfl (by decide)
  simpa using h

/-- Claim C10: a qualified candidate sentence for which the cleaner
returns no variants is excluded from the retained sentence list and
contributes nothing to the variant set, yet its original text still enters
the doc list, and the returned doc string is always the space-join of all
qualified candidate sentences. -/
theorem variantless_excluded (cl : Collab) (term : String) (st : ExtState) (s : String)
    (hq : cl.qualify_sentence s = true) (hv : (cl.clean_sentence s term).2 = []) :
    processSentence cl term st s = { st with docL := st.docL ++ [s] } ∧
    ∀ (sents0 : List SentenceR) (vars0 : List String) (pageText : String),
      (extractSentences cl term sents0 vars0 pageText).doc =
        String.intercalate " " (qualifiedSentences cl term pageText) := by
  constructor
  · unfold processSentence
    rw [if_pos hq]
    dsimp only
    rw [if_neg (fun hcond => hcond.1 hv)]
  · intro sents0 vars0 pageText
    unfold extractSentences qualifiedSentences
    dsimp only
    rw [foldl_processParagraph_docL]
    simp

/-- Witness for variantless_excluded: with a variant-free cleaner the
sentence lands in doc only. -/
theorem variantless_excluded_witness :
    processSentence novarCollab "t" { docL := [], sentences := [], variants := [] }
        "x" =
      { docL := ["x"], sentences := [], variants := [] } ∧
    (extractSentences novarCollab "t" [] [] "hello").doc =
      String.intercalate " " (qualifiedSentences novarCollab "t" "hello") := by
  have h := variantless_excluded novarCollab "t"
    { docL := [], sentences := [], variants := [] } "x" rfl rfl
  exact ⟨by simpa using h.1, h.2 [] [] "hello"⟩

theorem getHtmlFeatures_none_iff (term html : String) :
    getHtmlFeatures term html = none ↔ term = "" := by
  unfold getHtmlFeatures
  split <;> simp_all

theorem applyHtmlFeatures_of_ne (st : PageState) (html : String) (h : st.term ≠ "") :
    applyHtmlFeatures st html = { st with features := getHtmlFeatures st.term html } := by
  unfold applyHtmlFeatures
  cases hf : getHtmlFeatures st.term html with
  | none => exact absurd ((getHtmlFeatures_none_iff st.term html).mp hf) h
  | some f => rfl

theorem applyHtmlFeatures_text (st : PageState) (html : String) :
    (applyHtmlFeatures st html).text = st.text := by
  unfold applyHtmlFeatures
  split <;> rfl

theorem applyMeta_text (st : PageState) (html : String) :
    (applyMeta st html).text = st.text := rfl

theorem subNewlinesAux_cons (inRun : Bool) (c : Char) (rest : List Char) :
    subNewlinesAux inRun (c :: rest) =
      if c = '\n' then
        (if inRun then [] else ['\n', '\n']) ++ subNewlinesAux true rest
      else c :: subNewlinesAux false rest := rfl

theorem subNewlinesAux_false_app (a b : List Char) (ha : ∀ c ∈ a, c ≠ '\n') :
    subNewlinesAux false (a ++ b) = a ++ subNewlinesAux false b := by
  induction a with
  | nil => rfl
  | cons c a ih =>
    have hc : c ≠ '\n' := ha c (by simp)
    rw [List.cons_append, subNewlinesAux_cons, if_neg hc,
      ih (fun x hx => ha x (by simp [hx])), List.cons_append]

theorem subNewlinesAux_true_run (j : Nat) (b : List Char) :
    subNewlinesAux true (List.replicate j '\n' ++ b) = subNewlinesAux true b := by
  induction j with
  | zero => rfl
  | succ j ih =>
    rw [List.replicate_succ, List.cons_append, subNewlinesAux_cons, if_pos rfl]
    simpa using ih

theorem subNewlinesAux_true_false (b : List Char) (hb : b.head? ≠ some '\n') :
    subNewlinesAux true b = subNewlinesAux false b := by
  cases b with
  | nil => rfl
  | cons c t =>
    have hc : c ≠ '\n' := by
      intro h
      exact hb (by simp [h])
    rw [subNewlinesAux_cons, subNewlinesAux_cons, if_neg hc, if_neg hc]

theorem subNewlines_run (a : List Char) (k : Nat) (b : List Char)
    (ha : ∀ c ∈ a, c ≠ '\n') (hk : 1 ≤ k) (hb : b.head? ≠ some '\n') :
    subNewlines (a ++ List.replicate k '\n' ++ b) =
      a ++ '\n' :: '\n' :: subNewlines b := by
  obtain ⟨j, rfl⟩ : ∃ j, k = j + 1 := ⟨k - 1, by omega⟩
  unfold subNewlines
  rw [List.append_assoc, subNewlinesAux_false_app a _ ha]
  congr 1
  rw [List.replicate_succ, List.cons_append, subNewlinesAux_cons, if_pos rfl,
    subNewlinesAux_true_run, subNewlinesAux_true_false b hb]
  rfl

/-- Claim C5 (counterexample): the fallback newline rewriting does not
leave single newlines unchanged: on a text with one single newline the
code-side rewriting differs from the spec-side collapse, doubling the
newline, so the fallback text is split into two paragraphs and the claimed
behavior is refuted at this input. -/
theorem fallback_newline_counterexample :
    subNewlines "a\nb".toList ≠ specNewlineCollapse "a\nb".toList ∧
    subNewlines "a\nb".toList = "a\n\nb".toList ∧
    (parseResponse fbCollab (initState "u" "t") "x").1.text = some "a b" := by
  decide

/-- Claim C5 (amended): for every HTML input on which the primary converter
raises, the fallback conversion is used (its text reaches sentence
extraction and becomes the stored text) and no error is logged, only one
informational line; the fallback output has every maximal run of one or
more newlines replaced by exactly two newlines, so single newlines are
doubled rather than preserved. -/
theorem fallback_conversion (cl : Collab) (st : PageState) (responseText : String)
    (h : cl.html2text responseText = none) :
    (parseResponse cl st responseText).1.text =
      some (extractSentences cl st.term st.sentences st.variants
        (subNewlinesStr (cl.soupText responseText))).doc ∧
    (parseResponse cl st responseText).2 =
      [(LogLevel.info, "Falling back on BeautifulSoup")] ∧
    ∀ (a : List Char) (k : Nat) (b : List Char), (∀ c ∈ a, c ≠ '\n') → 1 ≤ k →
      b.head? ≠ some '\n' →
      subNewlines (a ++ List.replicate k '\n' ++ b) =
        a ++ '\n' :: '\n' :: subNewlines b := by
  refine ⟨?_, ?_, fun a k b => subNewlines_run a k b⟩
  · unfold parseResponse
    rw [h]
    dsimp only
    rw [applyMeta_text, applyHtmlFeatures_text]
  · unfold parseResponse
    rw [h]

/-- Witness for fallback_conversion: a collaborator bundle whose primary
converter always raises, applied to a concrete page. -/
theorem fallback_conversion_witness :
    (parseResponse fbCollab (initState "u" "t") "x").1.text =
      some (extractSentences fbCollab "t" [] []
        (subNewlinesStr (fbCollab.soupText "x"))).doc ∧
    (parseResponse fbCollab (initState "u" "t") "x").2 =
      [(LogLevel.info, "Falling back on BeautifulSoup")] ∧
    subNewlines ("a".toList ++ List.replicate 1 '\n' ++ "b".toList) =
      "a".toList ++ '\n' :: '\n' :: subNewlines "b".toList := by
  have h := fallback_conversion fbCollab (initState "u" "t") "x" rfl
  exact ⟨h.1, h.2.1, h.2.2 "a".toList 1 "b".toList (by decide) (by decide) (by decide)⟩

/-- Claim C9 (counterexample): two runs over identical fetched html, the
same term and the same configuration but different URLs assemble different
records, because the record embeds the url and the source derived from
it; so the record is not a pure function of html, term and configuration
alone. -/
theorem pipeline_url_counterexample :
    (runPipeline idCollab { request_retry := 3, save_html := false }
        "urlA" "term" "<p>x</p>").1 ≠
      (runPipeline idCollab { request_retry := 3, save_html := false }
        "urlB" "term" "<p>x</p>").1 := by
  decide

/-- Claim C9 (amended): once the fetch has succeeded the extraction
pipeline is a pure function of url, fetched html, term and configuration
(the process-wide collaborators being fixed): any two runs over identical
such inputs assemble identical records. -/
theorem pipeline_deterministic (cl : Collab) (cfg : Config) (url term html : String)
    (r1 r2 : Record × Log)
    (h1 : r1 = runPipeline cl cfg url term html)
    (h2 : r2 = runPipeline cl cfg url term html) : r1 = r2 :=
  h1.trans h2.symm

/-- Witness for pipeline_deterministic on a concrete page. -/
theorem pipeline_deterministic_witness :
    runPipeline idCollab { request_retry := 3, save_html := true } "u" "t" "<b>t</b>" =
      runPipeline idCollab { request_retry := 3, save_html := true } "u" "t"
        "<b>t</b>" :=
  pipeline_deterministic idCollab { request_retry := 3, save_html := true } "u" "t"
    "<b>t</b>" _ _ rfl rfl

set_option maxRecDepth 8000 in
/-- Claim C4 (code evaluation): the author scraper misses the plain
meta-author tag of the claim because its pattern demands a space and one
further non-bracket character between the quoted content value and the
closing bracket, and it never matches the og:author convention because the
prop_names dict literal repeats the property key, so that entry is lost;
tags in space-separated self-closing form are found, and a candidate
starting with http is skipped in favor of a later valid candidate. -/
theorem meta_author_eval :
    getMeta "<meta name=\"author\" content=\"Jane Doe\">" = (none, none) ∧
    getMeta "<meta property=\"og:author\" content=\"Jane Doe\" />" = (none, none) ∧
    getMeta "<meta name=\"author\" content=\"Jane Doe\" />" = (some "Jane Doe", none) ∧
    getMeta "<meta property=\"article:author\" content=\"Jane Doe\" />" =
      (some "Jane Doe", none) ∧
    getMeta "<meta name=\"author\" content=\"http://e.com/x\" /><meta property=\"article:author\" content=\"Jane Doe\" />" =
      (some "Jane Doe", none) := by
  decide

/-- Claim C8: the quote test matches the opening and closing glyph sets
independently: a term preceded by an opening low-quote entity and followed
by a closing guillemet entity within one tag sets the quotes flag, exactly
as a family-matched pair does. -/
theorem quote_mismatched_pair :
    getHtmlFeatures "myterm" "<&bdquo;>myterm</&raquo;>" =
      some { highlighted := false, quotes := true } ∧
    getHtmlFeatures "myterm" "<&ldquo;>myterm</&rdquo;>" =
      some { highlighted := false, quotes := true } := by
  decide

/-- Claim C3: every article-API failure path (transport or decode error,
missing objects key, empty objects list) yields an absent result with one
logged error and no propagated exception, while a response with a
well-formed first object has its text, html, author and title adopted
verbatim into the record, with sentences, variants and features computed
from the object's html rather than its text. -/
theorem articleApi_contract :
    (diffbotRequestPage none =
      (none, [(LogLevel.error, "Failed to return page for url")])) ∧
    (∀ body : DiffBody, body.objects = none →
      diffbotRequestPage (some body) =
        (none, [(LogLevel.error, "Failed to return page for url")])) ∧
    (∀ body : DiffBody, body.objects = some [] →
      diffbotRequestPage (some body) =
        (none, [(LogLevel.error, "Failed to return page for url")])) ∧
    (∀ (cl : Collab) (cfg : Config) (st : PageState) (body : DiffBody)
        (obj : DiffObj) (rest : List DiffObj) (h : String),
        body.objects = some (obj :: rest) → obj.html = some h → st.term ≠ "" →
      ∃ st2, diffbotParseResponse cl st body = some st2 ∧
        structured cfg cl st2 =
          { term := st.term, url := st.url, source := cl.get_source_from_url st.url,
            doc := obj.text,
            features := getHtmlFeatures st.term h,
            variants := (extractSentences cl st.term st.sentences st.variants h).variants,
            sentences := (extractSentences cl st.term st.sentences st.variants h).sentences,
            author := obj.author, title := obj.title,
            html := if cfg.save_html then some h else none }) := by
  refine ⟨rfl, ?_, ?_, ?_⟩
  · intro body hobj
    unfold diffbotRequestPage
    dsimp only
    rw [hobj]
  · intro body hobj
    unfold diffbotRequestPage
    dsimp only
    rw [hobj]
  · intro cl cfg st body obj rest h hobj hhtml hterm
    refine ⟨applyHtmlFeatures
      { st with
        text := obj.text,
        html := h,
        author := obj.author,
        title := obj.title,
        sentences := (extractSentences cl st.term st.sentences st.variants h).sentences,
        variants := (extractSentences cl st.term st.sentences st.variants h).variants }
      h, ?_, ?_⟩
    · unfold diffbotParseResponse
      dsimp only
      rw [hobj]
      dsimp only
      rw [hhtml]
    · rw [applyHtmlFeatures_of_ne]
      · rfl
      · exact hterm

/-- Witness for articleApi_contract: the failure paths on concrete bodies
and the adoption shape on a concrete well-formed object. -/
theorem articleApi_contract_witness :
    diffbotRequestPage (some { objects := none }) =
      (none, [(LogLevel.error, "Failed to return page for url")]) ∧
    diffbotRequestPage (some { objects := some [] }) =
      (none, [(LogLevel.error, "Failed to return page for url")]) ∧
    ∃ st2, diffbotParseResponse idCollab (initState "u" "t")
        { objects := some [{ text := some "T", html := some "<b>t</b>",
                             author := some "A", title := some "Ti" }] } = some st2 ∧
      structured { request_retry := 3, save_html := false } idCollab st2 =
        { term := "t", url := "u", source := idCollab.get_source_from_url "u",
          doc := some "T",
          features := getHtmlFeatures "t" "<b>t</b>",
          variants := (extractSentences idCollab "t" [] [] "<b>t</b>").variants,
          sentences := (extractSentences idCollab "t" [] [] "<b>t</b>").sentences,
          author := some "A", title := some "Ti",
          html := none } := by
  refine ⟨articleApi_contract.2.1 { objects := none } rfl,
    articleApi_contract.2.2.1 { objects := some [] } rfl, ?_⟩
  have h := articleApi_contract.2.2.2 idCollab { request_retry := 3, save_html := false }
    (initState "u" "t")
    { objects := some [{ text := some "T", html := some "<b>t</b>",
                         author := some "A", title := some "Ti" }] }
    { text := some "T", html := some "<b>t</b>", author := some "A", title := some "Ti" }
    [] "<b>t</b>" rfl rfl (by decide)
  exact h

theorem charToNat_ofNat (m : Nat) (h : m.isValidChar) : (Char.ofNat m).toNat = m := by
  unfold Char.ofNat
  rw [dif_pos h]
  rfl

theorem toLower_eq_self_of_not_upper (c : Char) (h : ¬(65 ≤ c.toNat ∧ c.toNat ≤ 90)) :
    c.toLower = c := by
  unfold Char.toLower
  dsimp only
  rw [if_neg (fun hc => h ⟨hc.1, hc.2⟩)]

theorem toLower_toNat_of_upper (c : Char) (h : 65 ≤ c.toNat ∧ c.toNat ≤ 90) :
    c.toLower.toNat = c.toNat + 32 := by
  unfold Char.toLower
  dsimp only
  rw [if_pos ⟨h.1, h.2⟩, charToNat_ofNat _ (Or.inl (by omega))]

theorem toLower_eq_sym_iff (d : Char)
    (hd : d.toNat < 65 ∨ (90 < d.toNat ∧ d.toNat < 97) ∨ 122 < d.toNat) (c : Char) :
    c.toLower = d ↔ c = d := by
  constructor
  · intro h
    by_cases hc : 65 ≤ c.toNat ∧ c.toNat ≤ 90
    · have h2 := toLower_toNat_of_upper c hc
      rw [h] at h2
      omega
    · rwa [toLower_eq_self_of_not_upper c hc] at h
  · intro h
    subst h
    exact toLower_eq_self_of_not_upper c (by omega)

theorem ceq_true_iff (a b : Char) : ceq true a b = true ↔ a.toLower = b.toLower := by
  unfold ceq
  simp

theorem ciEqL_symm (a b : List Char) (h : CiEqL a b) : CiEqL b a := h.symm

theorem ciEqL_sym_list (l : List Char)
    (hl : ∀ d ∈ l, d.toNat < 65 ∨ (90 < d.toNat ∧ d.toNat < 97) ∨ 122 < d.toNat)
    (l2 : List Char) (h : CiEqL l l2) : l2 = l := by
  induction l generalizing l2 with
  | nil =>
    unfold CiEqL at h
    exact List.eq_nil_of_map_eq_nil h.symm
  | cons d l ih =>
    cases l2 with
    | nil => exact absurd h.symm (by simp [CiEqL])
    | cons c l2 =>
      unfold CiEqL at h
      simp only [List.map_cons, List.cons.injEq] at h
      have hd := hl d (by simp)
      have h1 : c.toLower = d := by
        rw [← h.1, toLower_eq_self_of_not_upper d (by omega)]
      rw [(toLower_eq_sym_iff d (by omega) c).mp h1,
        ih (fun x hx => hl x (by simp [hx])) l2 h.2]

theorem stripPrefixCi_of_ciEqL (l l2 r : List Char) (h : CiEqL l l2) :
    stripPrefixCi true l (l2 ++ r) = some r := by
  induction l generalizing l2 with
  | nil =>
    have hl2 : l2 = [] := by simpa [CiEqL] using h.symm
    rw [hl2]
    rfl
  | cons c l ih =>
    cases l2 with
    | nil => exact absurd h.symm (by simp [CiEqL])
    | cons d l2 =>
      unfold CiEqL at h
      simp only [List.map_cons, List.cons.injEq] at h
      have hceq : ceq true c d = true := (ceq_true_iff c d).mpr h.1
      show stripPrefixCi true (c :: l) (d :: (l2 ++ r)) = some r
      unfold stripPrefixCi
      rw [if_pos hceq]
      exact ih l2 h.2

theorem stripPrefixCi_inv (l s r : List Char) (h : stripPrefixCi true l s = some r) :
    ∃ l2, s = l2 ++ r ∧ CiEqL l l2 := by
  induction l generalizing s with
  | nil =>
    refine ⟨[], ?_, rfl⟩
    unfold stripPrefixCi at h
    injection h with h
  | cons c l ih =>
    cases s with
    | nil => exact absurd h (by unfold stripPrefixCi; simp)
    | cons d s =>
      unfold stripPrefixCi at h
      by_cases hc : ceq true c d = true
      · rw [if_pos hc] at h
        obtain ⟨l2, heq, hci⟩ := ih s h
        refine ⟨d :: l2, by rw [heq, List.cons_append], ?_⟩
        unfold CiEqL
        simp only [List.map_cons, List.cons.injEq]
        exact ⟨(ceq_true_iff c d).mp hc, hci⟩
      · rw [if_neg (by simpa using hc)] at h
        cases h

theorem rmatch_eps_mem (ci : Bool) (s : List Char) (env : REnv) :
    (s, env) ∈ rmatch ci Regex.eps s env := by
  simp [rmatch]

theorem rmatch_eps_inv (ci : Bool) (s : List Char) (env : REnv)
    (out : List Char × REnv) (h : out ∈ rmatch ci Regex.eps s env) : out = (s, env) := by
  simpa [rmatch] using h

theorem rmatch_lit_mem (l l2 r : List Char) (env : REnv) (h : CiEqL l l2) :
    (r, env) ∈ rmatch true (Regex.lit l) (l2 ++ r) env := by
  simp only [rmatch, stripPrefixCi_of_ciEqL l l2 r h]
  simp

theorem rmatch_lit_inv (ci : Bool) (l s : List Char) (env : REnv)
    (out : List Char × REnv) (h : out ∈ rmatch ci (Regex.lit l) s env) :
    out.2 = env ∧ stripPrefixCi ci l s = some out.1 := by
  simp only [rmatch] at h
  cases hsp : stripPrefixCi ci l s with
  | none => rw [hsp] at h; cases h
  | some r =>
    rw [hsp] at h
    simp only [List.mem_singleton] at h
    subst h
    exact ⟨rfl, rfl⟩

theorem rmatch_cat_mem (ci : Bool) (r1 r2 : Regex) (s : List Char) (env : REnv)
    (mid out : List Char × REnv) (h1 : mid ∈ rmatch ci r1 s env)
    (h2 : out ∈ rmatch ci r2 mid.1 mid.2) :
    out ∈ rmatch ci (Regex.cat r1 r2) s env := by
  simp only [rmatch]
  exact List.mem_flatMap.mpr ⟨mid, h1, h2⟩

theorem rmatch_cat_inv (ci : Bool) (r1 r2 : Regex) (s : List Char) (env : REnv)
    (out : List Char × REnv) (h : out ∈ rmatch ci (Regex.cat r1 r2) s env) :
    ∃ mid, mid ∈ rmatch ci r1 s env ∧ out ∈ rmatch ci r2 mid.1 mid.2 := by
  simp only [rmatch] at h
  exact List.mem_flatMap.mp h

theorem rmatch_grp_mem (ci : Bool) (n : Nat) (r : Regex) (s : List Char) (env : REnv)
    (out : List Char × REnv) (h : out ∈ rmatch ci r s env) :
    (out.1, (n, s.take (s.length - out.1.length)) :: out.2) ∈
      rmatch ci (Regex.grp n r) s env := by
  simp only [rmatch]
  exact List.mem_map.mpr ⟨out, h, rfl⟩

theorem rmatch_grp_inv (ci : Bool) (n : Nat) (r : Regex) (s : List Char) (env : REnv)
    (out : List Char × REnv) (h : out ∈ rmatch ci (Regex.grp n r) s env) :
    ∃ inner, inner ∈ rmatch ci r s env ∧
      out = (inner.1, (n, s.take (s.length - inner.1.length)) :: inner.2) := by
  simp only [rmatch] at h
  obtain ⟨inner, hmem, heq⟩ := List.mem_map.mp h
  exact ⟨inner, hmem, heq.symm⟩

theorem rmatch_bref_mem (n : Nat) (env : REnv) (l l2 r : List Char)
    (hl : env.lookup n = some l) (h : CiEqL l l2) :
    (r, env) ∈ rmatch true (Regex.bref n) (l2 ++ r) env := by
  simp only [rmatch, hl, stripPrefixCi_of_ciEqL l l2 r h]
  simp

theorem rmatch_bref_inv (ci : Bool) (n : Nat) (s : List Char) (env : REnv)
    (out : List Char × REnv) (h : out ∈ rmatch ci (Regex.bref n) s env) :
    out.2 = env ∧ ∃ l, env.lookup n = some l ∧ stripPrefixCi ci l s = some out.1 := by
  simp only [rmatch] at h
  cases hl : env.lookup n with
  | none => rw [hl] at h; cases h
  | some l =>
    rw [hl] at h
    dsimp only at h
    cases hsp : stripPrefixCi ci l s with
    | none => rw [hsp] at h; cases h
    | some r =>
      rw [hsp] at h
      simp only [List.mem_singleton] at h
      subst h
      exact ⟨rfl, l, rfl, hsp⟩

theorem mem_countsDown (k n : Nat) (h : k ≤ n) : k ∈ countsDown n := by
  induction n with
  | zero => simp [countsDown]; omega
  | succ n ih =>
    unfold countsDown
    rcases Nat.eq_or_lt_of_le h with heq | hlt
    · simp [heq]
    · simp only [List.mem_cons]
      exact Or.inr (ih (by omega))

theorem countsDown_le (k n : Nat) (h : k ∈ countsDown n) : k ≤ n := by
  induction n with
  | zero => simpa [countsDown] using h
  | succ n ih =>
    unfold countsDown at h
    simp only [List.mem_cons] at h
    rcases h with h | h
    · omega
    · have := ih h
      omega

theorem runLen_append (ci : Bool) (a : Atom) (pre rest : List Char)
    (h : ∀ c ∈ pre, a.test ci c = true) :
    pre.length ≤ runLen ci a (pre ++ rest) := by
  induction pre with
  | nil => simp
  | cons c pre ih =>
    rw [List.cons_append]
    unfold runLen
    rw [if_pos (h c (by simp))]
    simpa using ih (fun x hx => h x (by simp [hx]))

theorem test_of_take (ci : Bool) (a : Atom) (s : List Char) (k : Nat)
    (h : k ≤ runLen ci a s) : ∀ c ∈ s.take k, a.test ci c = true := by
  induction s generalizing k with
  | nil => simp
  | cons c s ih =>
    cases k with
    | zero => simp
    | succ k =>
      unfold runLen at h
      by_cases hc : a.test ci c = true
      · rw [if_pos hc] at h
        intro x hx
        rw [List.take_succ_cons] at hx
        rcases List.mem_cons.mp hx with hx | hx
        · rw [hx]; exact hc
        · exact ih k (by omega) x hx
      · rw [if_neg hc] at h
        omega

theorem rmatch_star_mem (ci : Bool) (a : Atom) (pre rest : List Char) (env : REnv)
    (h : ∀ c ∈ pre, a.test ci c = true) :
    (rest, env) ∈ rmatch ci (Regex.star a) (pre ++ rest) env := by
  simp only [rmatch]
  refine List.mem_map.mpr
    ⟨pre.length, mem_countsDown _ _ (runLen_append ci a pre rest h), ?_⟩
  rw [List.drop_left]

theorem rmatch_star_inv (ci : Bool) (a : Atom) (s : List Char) (env : REnv)
    (out : List Char × REnv) (h : out ∈ rmatch ci (Regex.star a) s env) :
    out.2 = env ∧ ∃ pre, s = pre ++ out.1 ∧ ∀ c ∈ pre, a.test ci c = true := by
  simp only [rmatch] at h
  obtain ⟨k, hk, hout⟩ := List.mem_map.mp h
  refine ⟨by rw [← hout], s.take k, ?_, test_of_take ci a s k (countsDown_le k _ hk)⟩
  rw [← hout]
  exact (List.take_append_drop k s).symm

theorem rmatch_altLits_mem (ls : List (List Char)) (l l2 r : List Char) (env : REnv)
    (hmem : l ∈ ls) (h : CiEqL l l2) :
    (r, env) ∈ rmatch true (altLits ls) (l2 ++ r) env := by
  induction ls with
  | nil => cases hmem
  | cons x ls ih =>
    simp only [altLits, rmatch, List.mem_append]
    rcases List.mem_cons.mp hmem with hx | hx
    · subst hx
      exact Or.inl (rmatch_lit_mem l l2 r env h)
    · exact Or.inr (ih hx)

theorem rmatch_altLits_inv (ci : Bool) (ls : List (List Char)) (s : List Char)
    (env : REnv) (out : List Char × REnv) (h : out ∈ rmatch ci (altLits ls) s env) :
    out.2 = env ∧ ∃ l ∈ ls, stripPrefixCi ci l s = some out.1 := by
  induction ls with
  | nil =>
    exfalso
    cases s with
    | nil => simp [altLits, rmatch] at h
    | cons c rest =>
      simp only [altLits, rmatch] at h
      rw [if_neg (by simp [Atom.test])] at h
      cases h
  | cons x ls ih =>
    simp only [altLits, rmatch, List.mem_append] at h
    rcases h with h | h
    · obtain ⟨henv, hsp⟩ := rmatch_lit_inv ci x s env out h
      exact ⟨henv, x, by simp, hsp⟩
    · obtain ⟨henv, l, hl, hsp⟩ := ih h
      exact ⟨henv, l, by simp [hl], hsp⟩

theorem rsearch_iff (ci : Bool) (r : Regex) (s : List Char) :
    rsearch ci r s = true ↔ ∃ t, t.IsSuffix s ∧ rmatch ci r t [] ≠ [] := by
  induction s with
  | nil =>
    simp only [rsearch]
    constructor
    · intro h
      exact ⟨[], List.suffix_rfl, by simpa using h⟩
    · rintro ⟨t, hsuf, hne⟩
      have ht : t = [] := List.suffix_nil.mp hsuf
      subst ht
      simpa using hne
  | cons c cs ih =>
    simp only [rsearch, Bool.or_eq_true, ih]
    constructor
    · rintro (h | ⟨t, hsuf, hne⟩)
      · exact ⟨c :: cs, List.suffix_rfl, by simpa using h⟩
      · exact ⟨t, hsuf.trans (List.suffix_cons c cs), hne⟩
    · rintro ⟨t, hsuf, hne⟩
      rcases List.suffix_cons_iff.mp hsuf with h | h
      · subst h
        exact Or.inl (by simpa using hne)
      · exact Or.inr ⟨t, h, hne⟩

theorem peel_lit (l : List Char) (r2 : Regex) (s : List Char) (env : REnv)
    (out : List Char × REnv)
    (h : out ∈ rmatch true (Regex.cat (Regex.lit l) r2) s env) :
    ∃ l2 s2, s = l2 ++ s2 ∧ CiEqL l l2 ∧ out ∈ rmatch true r2 s2 env := by
  obtain ⟨mid, h1, h2⟩ := rmatch_cat_inv true _ _ s env out h
  obtain ⟨henv, hsp⟩ := rmatch_lit_inv true l s env mid h1
  obtain ⟨l2, heq, hci⟩ := stripPrefixCi_inv l s mid.1 hsp
  exact ⟨l2, mid.1, heq, hci, by rw [← henv]; exact h2⟩

theorem peel_star (a : Atom) (r2 : Regex) (s : List Char) (env : REnv)
    (out : List Char × REnv)
    (h : out ∈ rmatch true (Regex.cat (Regex.star a) r2) s env) :
    ∃ pre s2, s = pre ++ s2 ∧ (∀ c ∈ pre, a.test true c = true) ∧
      out ∈ rmatch true r2 s2 env := by
  obtain ⟨mid, h1, h2⟩ := rmatch_cat_inv true _ _ s env out h
  obtain ⟨henv, pre, heq, hpre⟩ := rmatch_star_inv true a s env mid h1
  exact ⟨pre, mid.1, heq, hpre, by rw [← henv]; exact h2⟩

theorem peel_grpAlt (n : Nat) (ls : List (List Char)) (r2 : Regex) (s : List Char)
    (env : REnv) (out : List Char × REnv)
    (h : out ∈ rmatch true (Regex.cat (Regex.grp n (altLits ls)) r2) s env) :
    ∃ l tg s2, l ∈ ls ∧ CiEqL l tg ∧ s = tg ++ s2 ∧
      out ∈ rmatch true r2 s2 ((n, tg) :: env) := by
  obtain ⟨mid, h1, h2⟩ := rmatch_cat_inv true _ _ s env out h
  obtain ⟨inner, hin, hmid⟩ := rmatch_grp_inv true n _ s env mid h1
  obtain ⟨hienv, l, hl, hsp⟩ := rmatch_altLits_inv true ls s env inner hin
  obtain ⟨tg, heq, hci⟩ := stripPrefixCi_inv l s inner.1 hsp
  refine ⟨l, tg, inner.1, hl, hci, heq, ?_⟩
  have hcap : s.take (s.length - inner.1.length) = tg := by
    rw [heq, List.length_append, Nat.add_sub_cancel, List.take_left]
  rw [hmid] at h2
  dsimp only at h2
  rw [hcap, hienv] at h2
  exact h2

theorem peel_bref (n : Nat) (l : List Char) (r2 : Regex) (s : List Char) (env : REnv)
    (out : List Char × REnv) (hl : env.lookup n = some l)
    (h : out ∈ rmatch true (Regex.cat (Regex.bref n) r2) s env) :
    ∃ l2 s2, s = l2 ++ s2 ∧ CiEqL l l2 ∧ out ∈ rmatch true r2 s2 env := by
  obtain ⟨mid, h1, h2⟩ := rmatch_cat_inv true _ _ s env out h
  obtain ⟨henv, l0, hl0, hsp⟩ := rmatch_bref_inv true n s env mid h1
  rw [hl] at hl0
  injection hl0 with hl0
  subst hl0
  obtain ⟨l2, heq, hci⟩ := stripPrefixCi_inv l s mid.1 hsp
  exact ⟨l2, mid.1, heq, hci, by rw [← henv]; exact h2⟩

theorem build_lit (l l2 : List Char) (r2 : Regex) (s2 : List Char) (env : REnv)
    (out : List Char × REnv) (hci : CiEqL l l2) (h : out ∈ rmatch true r2 s2 env) :
    out ∈ rmatch true (Regex.cat (Regex.lit l) r2) (l2 ++ s2) env :=
  rmatch_cat_mem true _ _ _ env (s2, env) out (rmatch_lit_mem l l2 s2 env hci) h

theorem build_star (a : Atom) (pre : List Char) (r2 : Regex) (s2 : List Char)
    (env : REnv) (out : List Char × REnv) (hpre : ∀ c ∈ pre, a.test true c = true)
    (h : out ∈ rmatch true r2 s2 env) :
    out ∈ rmatch true (Regex.cat (Regex.star a) r2) (pre ++ s2) env :=
  rmatch_cat_mem true _ _ _ env (s2, env) out (rmatch_star_mem true a pre s2 env hpre) h

theorem build_grpAlt (n : Nat) (ls : List (List Char)) (l tg : List Char) (r2 : Regex)
    (s2 : List Char) (env : REnv) (out : List Char × REnv) (hl : l ∈ ls)
    (hci : CiEqL l tg) (h : out ∈ rmatch true r2 s2 ((n, tg) :: env)) :
    out ∈ rmatch true (Regex.cat (Regex.grp n (altLits ls)) r2) (tg ++ s2) env := by
  have hg := rmatch_grp_mem true n (altLits ls) (tg ++ s2) env (s2, env)
    (rmatch_altLits_mem ls l tg s2 env hl hci)
  dsimp only at hg
  have hcap : (tg ++ s2).take ((tg ++ s2).length - s2.length) = tg := by
    rw [List.length_append, Nat.add_sub_cancel, List.take_left]
  rw [hcap] at hg
  exact rmatch_cat_mem true _ _ _ env _ out hg h

theorem build_bref (n : Nat) (l l2 : List Char) (r2 : Regex) (s2 : List Char)
    (env : REnv) (out : List Char × REnv) (hl : env.lookup n = some l)
    (hci : CiEqL l l2) (h : out ∈ rmatch true r2 s2 env) :
    out ∈ rmatch true (Regex.cat (Regex.bref n) r2) (l2 ++ s2) env :=
  rmatch_cat_mem true _ _ _ env (s2, env) out (rmatch_bref_mem n env l l2 s2 hl hci) h

theorem beq_toLower_eq (d : Char)
    (hd : d.toNat < 65 ∨ (90 < d.toNat ∧ d.toNat < 97) ∨ 122 < d.toNat) (c : Char) :
    (d.toLower == c.toLower) = (c == d) := by
  have hdl : d.toLower = d := toLower_eq_self_of_not_upper d (by omega)
  rw [hdl]
  cases hc : c == d with
  | true =>
    have hcd : c = d := by simpa using hc
    subst hcd
    simp [hdl]
  | false =>
    have hne : c ≠ d := by simpa using hc
    apply beq_eq_false_iff_ne.mpr
    intro heq
    exact hne ((toLower_eq_sym_iff d (by omega) c).mp heq.symm)

theorem any_ceq_eq (ds : List Char)
    (hd : ∀ d ∈ ds, d.toNat < 65 ∨ (90 < d.toNat ∧ d.toNat < 97) ∨ 122 < d.toNat)
    (c : Char) : (ds.any fun d => ceq true d c) = (ds.any fun d => c == d) := by
  induction ds with
  | nil => rfl
  | cons d ds ih =>
    rw [List.any_cons, List.any_cons, ih (fun x hx => hd x (by simp [hx]))]
    congr 1
    unfold ceq
    rw [if_pos rfl]
    exact beq_toLower_eq d (hd d (by simp)) c

theorem cls_test_eq (neg : Bool) (ds : List Char)
    (hd : ∀ d ∈ ds, d.toNat < 65 ∨ (90 < d.toNat ∧ d.toNat < 97) ∨ 122 < d.toNat)
    (c : Char) :
    (Atom.cls neg ds).test true c = ((ds.any fun d => c == d) != neg) := by
  show ((ds.any fun d => ceq true d c) != neg) = _
  rw [any_ceq_eq ds hd c]

theorem clsNot_gt_iff (c : Char) : (clsNot ['>']).test true c = true ↔ c ≠ '>' := by
  rw [show clsNot ['>'] = Atom.cls true ['>'] from rfl,
    cls_test_eq true ['>'] (by decide) c]
  cases hc : c == '>' <;> simp_all

theorem clsSp_iff (c : Char) : (clsOf [' ']).test true c = true ↔ c = ' ' := by
  rw [show clsOf [' '] = Atom.cls false [' '] from rfl,
    cls_test_eq false [' '] (by decide) c]
  cases hc : c == ' ' <;> simp_all

theorem clsPn_iff (c : Char) :
    (clsOf [' ', ',', ':']).test true c = true ↔ (c = ' ' ∨ c = ',' ∨ c = ':') := by
  rw [show clsOf [' ', ',', ':'] = Atom.cls false [' ', ',', ':'] from rfl,
    cls_test_eq false [' ', ',', ':'] (by decide) c]
  simp

theorem highlight_sound (mh mt : List Char) (h : HighlightOcc mh mt) :
    rsearch true (highlightRe mt) mh = true := by
  obtain ⟨pre, tw, junk, spc, tm, pn, tw2, rest, tag, htag, htg, htm, htg2, hjunk,
    hspc, hpn, heq⟩ := h
  rw [rsearch_iff]
  refine ⟨'<' :: (tw ++ (junk ++ '>' :: (spc ++ (tm ++ (pn ++ '<' :: '/' ::
    (tw2 ++ '>' :: rest)))))), ⟨pre, heq.symm⟩, ?_⟩
  apply List.ne_nil_of_mem (a := (rest, [(1, tw)]))
  have b0 := rmatch_eps_mem true rest [(1, tw)]
  have b1 := build_lit ['>'] ['>'] Regex.eps rest [(1, tw)] (rest, [(1, tw)]) rfl b0
  have b2 := build_bref 1 tw tw2 _ _ [(1, tw)] _ rfl (ciEqL_symm _ _ htg2) b1
  have b3 := build_lit ['<', '/'] ['<', '/'] _ _ _ _ rfl b2
  have b4 := build_star (clsOf [' ', ',', ':']) pn _ _ _ _
    (fun c hc => (clsPn_iff c).mpr (hpn c hc)) b3
  have b5 := build_lit mt tm _ _ _ _ (ciEqL_symm _ _ htm) b4
  have b6 := build_star (clsOf [' ']) spc _ _ _ _
    (fun c hc => (clsSp_iff c).mpr (hspc c hc)) b5
  have b7 := build_lit ['>'] ['>'] _ _ _ _ rfl b6
  have b8 := build_star (clsNot ['>']) junk _ _ _ _
    (fun c hc => (clsNot_gt_iff c).mpr (hjunk c hc)) b7
  have b9 := build_grpAlt 1 tagAlts tag tw _ _ [] _ htag (ciEqL_symm _ _ htg) b8
  have b10 := build_lit ['<'] ['<'] _ _ _ _ rfl b9
  exact b10

theorem quote_sound (mh mt : List Char) (h : QuoteOcc mh mt) :
    rsearch true (quoteRe mt) mh = true := by
  obtain ⟨pre, qg, junk, spc, tm, pn, qg2, rest, q1, q2, hq1, hq2, hcg, htm, hcg2,
    hjunk, hspc, hpn, heq⟩ := h
  rw [rsearch_iff]
  refine ⟨'<' :: (qg ++ (junk ++ '>' :: (spc ++ (tm ++ (pn ++ '<' :: '/' ::
    (qg2 ++ '>' :: rest)))))), ⟨pre, heq.symm⟩, ?_⟩
  apply List.ne_nil_of_mem (a := (rest, [(2, qg2), (1, qg)]))
  have b0 := rmatch_eps_mem true rest [(2, qg2), (1, qg)]
  have b1 := build_lit ['>'] ['>'] Regex.eps rest [(2, qg2), (1, qg)]
    (rest, [(2, qg2), (1, qg)]) rfl b0
  have b2 := build_grpAlt 2 CLOSING_QUOTES q2 qg2 _ _ [(1, qg)] _ hq2
    (ciEqL_symm _ _ hcg2) b1
  have b3 := build_lit ['<', '/'] ['<', '/'] _ _ _ _ rfl b2
  have b4 := build_star (clsOf [' ', ',', ':']) pn _ _ _ _
    (fun c hc => (clsPn_iff c).mpr (hpn c hc)) b3
  have b5 := build_lit mt tm _ _ _ _ (ciEqL_symm _ _ htm) b4
  have b6 := build_star (clsOf [' ']) spc _ _ _ _
    (fun c hc => (clsSp_iff c).mpr (hspc c hc)) b5
  have b7 := build_lit ['>'] ['>'] _ _ _ _ rfl b6
  have b8 := build_star (clsNot ['>']) junk _ _ _ _
    (fun c hc => (clsNot_gt_iff c).mpr (hjunk c hc)) b7
  have b9 := build_grpAlt 1 OPENING_QUOTES q1 qg _ _ [] _ hq1
    (ciEqL_symm _ _ hcg) b8
  have b10 := build_lit ['<'] ['<'] _ _ _ _ rfl b9
  exact b10

theorem highlight_complete (mh mt : List Char)
    (h : rsearch true (highlightRe mt) mh = true) : HighlightOcc mh mt := by
  obtain ⟨t, ⟨pre, hpre⟩, hne⟩ := (rsearch_iff true (highlightRe mt) mh).mp h
  obtain ⟨out, hout⟩ := List.exists_mem_of_ne_nil _ hne
  obtain ⟨la, s1, ht, hcia, hm⟩ := peel_lit _ _ _ _ _ hout
  have hla : la = ['<'] := ciEqL_sym_list ['<'] (by decide) la hcia
  obtain ⟨tag, tg, s2, htag, hcitg, ht2, hm⟩ := peel_grpAlt _ _ _ _ _ _ hm
  obtain ⟨junk, s3, ht3, hjunk, hm⟩ := peel_star _ _ _ _ _ hm
  obtain ⟨lb, s4, ht4, hcib, hm⟩ := peel_lit _ _ _ _ _ hm
  have hlb : lb = ['>'] := ciEqL_sym_list ['>'] (by decide) lb hcib
  obtain ⟨spc, s5, ht5, hspc, hm⟩ := peel_star _ _ _ _ _ hm
  obtain ⟨tm, s6, ht6, hcitm, hm⟩ := peel_lit _ _ _ _ _ hm
  obtain ⟨pn, s7, ht7, hpn, hm⟩ := peel_star _ _ _ _ _ hm
  obtain ⟨lc, s8, ht8, hcic, hm⟩ := peel_lit _ _ _ _ _ hm
  have hlc : lc = ['<', '/'] := ciEqL_sym_list ['<', '/'] (by decide) lc hcic
  obtain ⟨tg2, s9, ht9, hcitg2, hm⟩ := peel_bref 1 tg _ _ ((1, tg) :: []) _ rfl hm
  obtain ⟨ld, s10, ht10, hcid, _⟩ := peel_lit _ _ _ _ _ hm
  have hld : ld = ['>'] := ciEqL_sym_list ['>'] (by decide) ld hcid
  refine ⟨pre, tg, junk, spc, tm, pn, tg2, s10, tag, htag, ciEqL_symm _ _ hcitg,
    ciEqL_symm _ _ hcitm, ciEqL_symm _ _ hcitg2,
    fun c hc => (clsNot_gt_iff c).mp (hjunk c hc),
    fun c hc => (clsSp_iff c).mp (hspc c hc),
    fun c hc => (clsPn_iff c).mp (hpn c hc), ?_⟩
  subst hla hlb hlc hld
  rw [← hpre, ht, ht2, ht3, ht4, ht5, ht6, ht7, ht8, ht9, ht10]
  simp [List.append_assoc]

theorem quote_complete (mh mt : List Char)
    (h : rsearch true (quoteRe mt) mh = true) : QuoteOcc mh mt := by
  obtain ⟨t, ⟨pre, hpre⟩, hne⟩ := (rsearch_iff true (quoteRe mt) mh).mp h
  obtain ⟨out, hout⟩ := List.exists_mem_of_ne_nil _ hne
  obtain ⟨la, s1, ht, hcia, hm⟩ := peel_lit _ _ _ _ _ hout
  have hla : la = ['<'] := ciEqL_sym_list ['<'] (by decide) la hcia
  obtain ⟨q1, qg, s2, hq1, hciq, ht2, hm⟩ := peel_grpAlt _ _ _ _ _ _ hm
  obtain ⟨junk, s3, ht3, hjunk, hm⟩ := peel_star _ _ _ _ _ hm
  obtain ⟨lb, s4, ht4, hcib, hm⟩ := peel_lit _ _ _ _ _ hm
  have hlb : lb = ['>'] := ciEqL_sym_list ['>'] (by decide) lb hcib
  obtain ⟨spc, s5, ht5, hspc, hm⟩ := peel_star _ _ _ _ _ hm
  obtain ⟨tm, s6, ht6, hcitm, hm⟩ := peel_lit _ _ _ _ _ hm
  obtain ⟨pn, s7, ht7, hpn, hm⟩ := peel_star _ _ _ _ _ hm
  obtain ⟨lc, s8, ht8, hcic, hm⟩ := peel_lit _ _ _ _ _ hm
  have hlc : lc = ['<', '/'] := ciEqL_sym_list ['<', '/'] (by decide) lc hcic
  obtain ⟨q2, qg2, s9, hq2, hciq2, ht9, hm⟩ := peel_grpAlt _ _ _ _ _ _ hm
  obtain ⟨ld, s10, ht10, hcid, _⟩ := peel_lit _ _ _ _ _ hm
  have hld : ld = ['>'] := ciEqL_sym_list ['>'] (by decide) ld hcid
  refine ⟨pre, qg, junk, spc, tm, pn, qg2, s10, q1, q2, hq1, hq2,
    ciEqL_symm _ _ hciq, ciEqL_symm _ _ hcitm, ciEqL_symm _ _ hciq2,
    fun c hc => (clsNot_gt_iff c).mp (hjunk c hc),
    fun c hc => (clsSp_iff c).mp (hspc c hc),
    fun c hc => (clsPn_iff c).mp (hpn c hc), ?_⟩
  subst hla hlb hlc hld
  rw [← hpre, ht, ht2, ht3, ht4, ht5, ht6, ht7, ht8, ht9, ht10]
  simp [List.append_assoc]

theorem squashed_append (a b keep : List Char) :
    squashed (a ++ b) keep = squashed a keep ++ squashed b keep := by
  unfold squashed
  rw [List.map_append, List.filter_append]

theorem contains_keep_toLower (c : Char) (h : keepMarkup.contains c.toLower = true) :
    keepMarkup.contains c = true := by
  have hm : c.toLower ∈ keepMarkup := by simpa using h
  simp only [keepMarkup, List.mem_cons, List.not_mem_nil, or_false,
    List.mem_singleton] at hm
  rcases hm with hm | hm | hm | hm | hm <;>
    · rw [(toLower_eq_sym_iff _ (by decide) c).mp hm]
      simp [keepMarkup]

theorem squashed_no_keep (s : List Char) (h : ∀ c ∈ s, c ∉ keepMarkup) :
    squashed s keepMarkup = squashed s [] := by
  induction s with
  | nil => rfl
  | cons c s ih =>
    have hc : c ∉ keepMarkup := h c (by simp)
    have hlow : keepMarkup.contains c.toLower = false := by
      cases hk : keepMarkup.contains c.toLower
      · rfl
      · exact absurd (by simpa using contains_keep_toLower c hk) hc
    have hih := ih (fun x hx => h x (by simp [hx]))
    simp only [squashed, List.map_cons, List.filter_cons] at hih ⊢
    rw [hlow, show List.contains [] c.toLower = false from rfl]
    simp only [Bool.or_false]
    cases ha : c.toLower.isAlphanum
    · rw [if_neg (by simp [ha]), if_neg (by simp [ha])]
      exact hih
    · rw [if_pos (by simp [ha]), if_pos (by simp [ha]), hih]

theorem squashed_lt : squashed ['<'] keepMarkup = ['<'] := by decide

theorem squashed_gt : squashed ['>'] keepMarkup = ['>'] := by decide

theorem squashed_ltsl : squashed ['<', '/'] keepMarkup = ['<', '/'] := by decide

theorem squashed_tag (tag : List Char) (h : tag ∈ tagAlts) :
    squashed tag keepMarkup = tag := by
  simp only [tagAlts, List.mem_cons, List.not_mem_nil, or_false,
    List.mem_singleton] at h
  rcases h with h | h | h | h | h <;> subst h <;> decide

/-- Claim C7 (counterexample): the first half of the claim fails for terms
containing markup-structural characters: the html below contains the term
a-less-than-b immediately enclosed in b tags, yet the highlighted flag is
false, because squashing keeps the less-than sign in the html but strips
it from the term, so the two normalized forms diverge. -/
theorem feature_flags_counterexample :
    ("<b>" ++ "a<b" ++ "</b>" : String) = "<b>a<b</b>" ∧
    getHtmlFeatures "a<b" "<b>a<b</b>" =
      some { highlighted := false, quotes := false } := by
  decide

/-- Claim C7 (amended): for every non-empty term free of markup-structural
characters, if the html contains the term immediately enclosed by one of
the emphasis tags with a matching closing tag then the highlighted flag is
true; and whenever the squashed markup contains no highlight-pattern
occurrence and no quote-pattern occurrence of the squashed term, both
flags are false. -/
theorem feature_flags (term html : String) (f : Features) (hterm : term ≠ "")
    (hker : ∀ c ∈ term.toList, c ∉ keepMarkup)
    (hf : getHtmlFeatures term html = some f) :
    (∀ (a b tag : List Char), tag ∈ tagAlts →
      html.toList = a ++ ['<'] ++ tag ++ ['>'] ++ term.toList ++ ['<', '/'] ++ tag
        ++ ['>'] ++ b →
      f.highlighted = true) ∧
    (¬ HighlightOcc (squashed html.toList keepMarkup) (squashed term.toList []) →
      ¬ QuoteOcc (squashed html.toList keepMarkup) (squashed term.toList []) →
      f = { highlighted := false, quotes := false }) := by
  unfold getHtmlFeatures at hf
  rw [if_neg hterm] at hf
  dsimp only at hf
  injection hf with hf
  constructor
  · intro a b tag htag hdec
    rw [← hf]
    show rsearch true (highlightRe (squashed term.toList []))
      (squashed html.toList keepMarkup) = true
    apply highlight_sound
    refine ⟨squashed a keepMarkup, tag, [], [], squashed term.toList keepMarkup, [],
      tag, squashed b keepMarkup, tag, htag, rfl, ?_, rfl, by simp, by simp, by simp,
      ?_⟩
    · rw [squashed_no_keep term.toList hker]
      rfl
    · rw [hdec, squashed_append, squashed_append, squashed_append, squashed_append,
        squashed_append, squashed_append, squashed_append, squashed_append,
        squashed_lt, squashed_gt, squashed_ltsl, squashed_tag tag htag]
      simp [List.append_assoc]
  · intro hHL hQT
    have h1 : rsearch true (highlightRe (squashed term.toList []))
        (squashed html.toList keepMarkup) = false := by
      cases hx : rsearch true (highlightRe (squashed term.toList []))
        (squashed html.toList keepMarkup)
      · rfl
      · exact absurd (highlight_complete _ _ hx) hHL
    have h2 : rsearch true (quoteRe (squashed term.toList []))
        (squashed html.toList keepMarkup) = false := by
      cases hx : rsearch true (quoteRe (squashed term.toList []))
        (squashed html.toList keepMarkup)
      · rfl
      · exact absurd (quote_complete _ _ hx) hQT
    rw [← hf, h1, h2]

/-- Witness for feature_flags: a concrete term wrapped in i tags is
reported as highlighted. -/
theorem feature_flags_witness :
    getHtmlFeatures "myterm" "<i>myterm</i>" =
      some { highlighted := true, quotes := false } ∧
    ({ highlighted := true, quotes := false } : Features).highlighted = true := by
  refine ⟨by decide, ?_⟩
  exact (feature_flags "myterm" "<i>myterm</i>"
    { highlighted := true, quotes := false } (by decide) (by decide) (by decide)).1
    [] [] "i".toList (by decide) (by decide)
